import Mathlib

/-!
# Verification of the sieve-selector forest core (`src/forest.rs`)

A multiway forest is encoded as a size-augmented left-child/right-sibling
binary structure (`Node`), navigated and edited through a zipper
(`ForestZipper` with a `ReturnNode` path).  The definitions below are a
shallow embedding of the Rust source: each Lean function mirrors the
corresponding Rust function, with `usize` rendered as `Nat`, the panic in
`find_label` rendered as `Option`, and the imperative loops rendered as
structural recursions on the argument that the loop consumes.
-/

namespace SieveSelector

/-- `enum Node` from `forest.rs`: a node in a left-child right-sibling
binary tree, containing a string; `size` caches the binary-subtree size. -/
inductive Node where
  | Empty : Node
  | Filled (label : String) (child : Node) (sibling : Node) (size : Nat) : Node
  deriving DecidableEq, Repr

/-- `enum ReturnNode`: one step of the path from the focused node back to
the root (`Parent` when descent went into `child`, `Sibling` when it went
into `sibling`). -/
inductive ReturnNode where
  | Parent (label : String) (prev : ReturnNode) (sibling : Node) : ReturnNode
  | Sibling (label : String) (prev : ReturnNode) (child : Node) : ReturnNode
  | Empty : ReturnNode
  deriving DecidableEq, Repr

/-- `struct ForestZipper`: a forest focused on a node. -/
structure ForestZipper where
  focus : Node
  prev : ReturnNode
  deriving DecidableEq, Repr

/-- `enum Tree`: the root of a single tree, as extracted by `extract_tree`. -/
inductive Tree where
  | Root (label : String) (child : Node) : Tree
  | Empty : Tree
  deriving DecidableEq, Repr

/-- `Node::size`. -/
def Node.size : Node → Nat
  | .Empty => 0
  | .Filled _ _ _ size => size

/-- `Node::new`: build a node, computing the cached size. -/
def Node.new (label : String) (child sibling : Node) : Node :=
  .Filled label child sibling (1 + child.size + sibling.size)

/-- The loop body of `Node::focus_node`, recursing on the tree being
descended (the Rust loop reassigns `focus` to a subterm each iteration). -/
def focus_node_aux : Nat → Node → ReturnNode → ForestZipper
  | 0, focus, prev => ⟨focus, prev⟩
  | _ + 1, .Empty, prev => ⟨.Empty, prev⟩
  | i + 1, .Filled label child sibling _, prev =>
    if i + 1 ≤ child.size then
      focus_node_aux i child (.Parent label prev sibling)
    else
      focus_node_aux (i - child.size) sibling (.Sibling label prev child)

/-- `Node::focus_node`: zipper focused on the node of pre-order `index`. -/
def Node.focus_node (f : Node) (index : Nat) : ForestZipper :=
  focus_node_aux index f .Empty

/-- The loop of `ForestZipper::restore`, recursing on the path. -/
def restore_aux : Node → ReturnNode → Node
  | focus, .Parent label prev sibling => restore_aux (Node.new label focus sibling) prev
  | focus, .Sibling label prev child => restore_aux (Node.new label child focus) prev
  | focus, .Empty => focus

/-- `ForestZipper::restore`. -/
def ForestZipper.restore (z : ForestZipper) : Node :=
  restore_aux z.focus z.prev

/-- The loop of `ForestZipper::restore_with_index`, carrying the index
accumulator `i` (initially 0 in the Rust code). -/
def restore_with_index_aux : Node → ReturnNode → Nat → Node × Nat
  | focus, .Parent label prev sibling, i =>
      restore_with_index_aux (Node.new label focus sibling) prev (i + 1)
  | focus, .Sibling label prev child, i =>
      restore_with_index_aux (Node.new label child focus) prev (i + 1 + child.size)
  | focus, .Empty, i => (focus, i)

/-- `ForestZipper::restore_with_index`. -/
def ForestZipper.restore_with_index (z : ForestZipper) : Node × Nat :=
  restore_with_index_aux z.focus z.prev 0

/-- The loop of `concat`, building the sibling path down `left_root`. -/
def concat_aux : Node → ReturnNode → ReturnNode
  | .Empty, prev => prev
  | .Filled label child sibling _, prev =>
      concat_aux sibling (.Sibling label prev child)

/-- `concat`: concatenate two trees, making their roots siblings. -/
def concat (left_root right_root : Node) : Node :=
  match right_root with
  | .Empty => left_root
  | _ => ForestZipper.restore ⟨right_root, concat_aux left_root .Empty⟩

/-- The loop of `Node::find_label`; the `panic!("Invalid index")` branch is
rendered as `none`. -/
def find_label_aux : Nat → Node → Option String
  | 0, .Filled label _ _ _ => some label
  | 0, .Empty => none
  | _ + 1, .Empty => none
  | i + 1, .Filled _ child sibling _ =>
    if i + 1 ≤ child.size then
      find_label_aux i child
    else
      find_label_aux (i - child.size) sibling

/-- `Node::find_label`: the label at pre-order `index` (`none` = panic). -/
def Node.find_label (f : Node) (index : Nat) : Option String :=
  find_label_aux index f

/-- `Node::set_label`. -/
def Node.set_label (f : Node) (index : Nat) (label : String) : Node :=
  let z := f.focus_node index
  let focus := match z.focus with
    | .Filled _ child sibling size => Node.Filled label child sibling size
    | .Empty => .Empty
  restore_aux focus z.prev

/-- `Node::prepend`. -/
def Node.prepend (f : Node) (label : String) : Node :=
  Node.new label .Empty f

/-- `ForestZipper::move_forward`: swap the focus with its next sibling. -/
def ForestZipper.move_forward : ForestZipper → ForestZipper
  | ⟨.Filled label child sibling _, prev⟩ =>
    match sibling with
    | .Filled label2 child2 sibling2 _ =>
        ⟨Node.new label child sibling2, .Sibling label2 prev child2⟩
    | .Empty => ⟨Node.new label child .Empty, prev⟩
  | ⟨.Empty, prev⟩ => ⟨.Empty, prev⟩

/-- `ForestZipper::move_backward`: swap the focus with its previous sibling. -/
def ForestZipper.move_backward : ForestZipper → ForestZipper
  | ⟨focus, .Sibling label prev child⟩ =>
    match focus with
    | .Filled label2 child2 sibling2 _ =>
        ⟨Node.new label2 child2 (Node.new label child sibling2), prev⟩
    | .Empty => ⟨.Empty, .Sibling label prev child⟩
  | z => z

/-- `ForestZipper::extract_tree`. -/
def ForestZipper.extract_tree : ForestZipper → ForestZipper × Tree
  | ⟨.Filled label child sibling _, prev⟩ => (⟨sibling, prev⟩, .Root label child)
  | ⟨.Empty, prev⟩ => (⟨.Empty, prev⟩, .Empty)

/-- The climbing loop of `ForestZipper::promote`, recursing on the path. -/
def promote_loop (root_label : String) (root_child : Node) :
    Node → ReturnNode → ForestZipper
  | focus, .Sibling label prev child =>
      promote_loop root_label root_child (Node.new label child focus) prev
  | focus, .Parent label prev sibling =>
      ⟨Node.new root_label root_child sibling, .Sibling label prev focus⟩
  | focus, .Empty => ⟨Node.new root_label root_child focus, .Empty⟩

/-- `ForestZipper::promote`. -/
def ForestZipper.promote (z : ForestZipper) : ForestZipper :=
  match z.extract_tree with
  | (zipper, .Root label child) => promote_loop label child zipper.focus zipper.prev
  | (zipper, .Empty) => zipper

/-- The chain-walking loop of `ForestZipper::demote`, recursing on the
previous sibling's child chain. -/
def demote_walk : ReturnNode → Node → ReturnNode
  | prev, .Filled label child sibling _ => demote_walk (.Sibling label prev child) sibling
  | prev, .Empty => prev

/-- `ForestZipper::demote`. -/
def ForestZipper.demote (z : ForestZipper) : ForestZipper :=
  match z.extract_tree with
  | (zipper, .Root root_label root_child) =>
    match zipper.prev with
    | .Sibling label prev child =>
        ⟨Node.new root_label root_child .Empty,
         demote_walk (.Parent label prev zipper.focus) child⟩
    | p => ⟨Node.new root_label root_child zipper.focus, p⟩
  | (zipper, .Empty) => zipper

/-- `Node::move_forward`. -/
def Node.move_forward (f : Node) (index : Nat) : Node × Nat :=
  ((f.focus_node index).move_forward).restore_with_index

/-- `Node::move_backward`. -/
def Node.move_backward (f : Node) (index : Nat) : Node × Nat :=
  ((f.focus_node index).move_backward).restore_with_index

/-- `Node::promote`. -/
def Node.promote (f : Node) (index : Nat) : Node × Nat :=
  ((f.focus_node index).promote).restore_with_index

/-- `Node::demote`. -/
def Node.demote (f : Node) (index : Nat) : Node × Nat :=
  ((f.focus_node index).demote).restore_with_index

/-- `Node::delete`. -/
def Node.delete (f : Node) (index : Nat) : Node :=
  let z := f.focus_node index
  let new_focus := match z.focus with
    | .Filled _ child sibling _ => concat child sibling
    | .Empty => .Empty
  restore_aux new_focus z.prev

/-! ## Observation functions

`labels` is the pre-order label sequence of the data model (visit self,
then `child`, then `sibling`); `well_sized` is the size invariant; the
`path_*` and `idx_of` functions read the reattachment plan of a path. -/

/-- Pre-order label sequence of the encoded forest. -/
def Node.labels : Node → List String
  | .Empty => []
  | .Filled label child sibling _ => label :: (child.labels ++ sibling.labels)

/-- The size invariant: every stored `size` equals `1 + size child + size
sibling`, recursively. -/
def Node.well_sized : Node → Prop
  | .Empty => True
  | .Filled _ child sibling size =>
      size = 1 + child.size + sibling.size ∧ child.well_sized ∧ sibling.well_sized

/-- The size invariant for every tree hanging off a path. -/
def ReturnNode.well_sized : ReturnNode → Prop
  | .Empty => True
  | .Parent _ prev sibling => sibling.well_sized ∧ prev.well_sized
  | .Sibling _ prev child => child.well_sized ∧ prev.well_sized

/-- Labels contributed by a path before the focus, in pre-order. -/
def path_pre : ReturnNode → List String
  | .Empty => []
  | .Parent label prev _ => path_pre prev ++ [label]
  | .Sibling label prev child => path_pre prev ++ label :: child.labels

/-- Labels contributed by a path after the focus, in pre-order. -/
def path_post : ReturnNode → List String
  | .Empty => []
  | .Parent _ prev sibling => sibling.labels ++ path_post prev
  | .Sibling _ prev _ => path_post prev

/-- The pre-order index that `restore_with_index` accumulates for a path. -/
def idx_of : ReturnNode → Nat
  | .Empty => 0
  | .Parent _ prev _ => 1 + idx_of prev
  | .Sibling _ prev child => 1 + child.size + idx_of prev

/-- Replace the end of a sibling chain: the specification-side view of
`concat` (and of `demote`'s chain walk). -/
def chain_append : Node → Node → Node
  | .Empty, f => f
  | .Filled label child sibling _, f => Node.new label child (chain_append sibling f)

/-- Climb a path past its leading `Sibling` steps, rebuilding them onto the
carried focus; report the first `Parent` step, if any.  This is the
specification-side view of `promote`'s climbing loop. -/
def climb : Node → ReturnNode → Node × Option (String × ReturnNode × Node)
  | focus, .Sibling label prev child => climb (Node.new label child focus) prev
  | focus, .Parent label prev sibling => (focus, some (label, prev, sibling))
  | focus, .Empty => (focus, none)

/-! ## Example forests from the spec's concrete scenarios -/

/-- The forest with roots "0", "1" (children "2","3"), "4". -/
def example_forest : Node :=
  Node.new "0" .Empty
    (Node.new "1" (Node.new "2" .Empty (Node.new "3" .Empty .Empty))
      (Node.new "4" .Empty .Empty))

/-- The forest with roots "1" (children "2","3") and "4". -/
def promote_example : Node :=
  Node.new "1" (Node.new "2" .Empty (Node.new "3" .Empty .Empty))
    (Node.new "4" .Empty .Empty)

/-! ## Basic lemmas about sizes and the invariant -/

theorem Node.new_size (label : String) (c s : Node) :
    (Node.new label c s).size = 1 + c.size + s.size := rfl

theorem Node.new_size_pos (label : String) (c s : Node) :
    0 < (Node.new label c s).size := by
  rw [Node.new_size]; omega

theorem Node.new_eq_of_ws {label : String} {c s : Node} {sz : Nat}
    (h : (Node.Filled label c s sz).well_sized) :
    Node.new label c s = .Filled label c s sz := by
  obtain ⟨hsz, -, -⟩ := h
  rw [Node.new, hsz]

theorem Node.ws_new {label : String} {c s : Node}
    (hc : c.well_sized) (hs : s.well_sized) : (Node.new label c s).well_sized :=
  ⟨rfl, hc, hs⟩

theorem Node.ws_empty : Node.Empty.well_sized := trivial

theorem Node.labels_length {f : Node} (hf : f.well_sized) :
    f.labels.length = f.size := by
  induction f with
  | Empty => rfl
  | Filled label child sibling size ihc ihs =>
    obtain ⟨hsz, hc, hs⟩ := hf
    simp [Node.labels, Node.size, ihc hc, ihs hs, hsz]
    omega

theorem Node.size_pos_of_ws {label : String} {c s : Node} {sz : Nat}
    (h : (Node.Filled label c s sz).well_sized) : 0 < sz := by
  obtain ⟨hsz, -, -⟩ := h
  omega

/-! ## Focusing and restoring -/

/-- Restoring the zipper built by `focus_node_aux` rebuilds exactly what
restoring the starting zipper would: focusing loses nothing. -/
theorem restore_focus_aux :
    ∀ (f : Node), f.well_sized → ∀ (i : Nat) (p : ReturnNode),
      restore_aux (focus_node_aux i f p).focus (focus_node_aux i f p).prev
        = restore_aux f p := by
  intro f
  induction f with
  | Empty =>
    intro _ i p
    cases i with
    | zero => rfl
    | succ i => rfl
  | Filled label child sibling size ihc ihs =>
    intro hf i p
    obtain ⟨hsz, hc, hs⟩ := hf
    cases i with
    | zero => rfl
    | succ i =>
      simp only [focus_node_aux]
      by_cases h : i + 1 ≤ child.size
      · rw [if_pos h, ihc hc]
        show restore_aux (Node.new label child sibling) p = _
        rw [Node.new_eq_of_ws ⟨hsz, hc, hs⟩]
      · rw [if_neg h, ihs hs]
        show restore_aux (Node.new label child sibling) p = _
        rw [Node.new_eq_of_ws ⟨hsz, hc, hs⟩]

/-- Focusing with an out-of-range index lands on an `Empty` focus. -/
theorem focus_empty_of_ge :
    ∀ (f : Node), f.well_sized → ∀ (i : Nat) (p : ReturnNode), f.size ≤ i →
      (focus_node_aux i f p).focus = .Empty := by
  intro f
  induction f with
  | Empty =>
    intro _ i p _
    cases i with
    | zero => rfl
    | succ i => rfl
  | Filled label child sibling size ihc ihs =>
    intro hf i p hge
    obtain ⟨hsz, hc, hs⟩ := hf
    cases i with
    | zero =>
      exfalso
      have h0 : size ≤ 0 := hge
      omega
    | succ i =>
      simp only [focus_node_aux]
      by_cases h : i + 1 ≤ child.size
      · exfalso
        have h1 : size ≤ i + 1 := hge
        omega
      · rw [if_neg h]
        apply ihs hs
        have h1 : size ≤ i + 1 := hge
        show sibling.size ≤ i - child.size
        omega

/-- Focusing preserves the size invariant of the focus and of every tree
hanging off the recorded path. -/
theorem ws_focus_aux :
    ∀ (f : Node), f.well_sized → ∀ (i : Nat) (p : ReturnNode), p.well_sized →
      (focus_node_aux i f p).focus.well_sized ∧
        (focus_node_aux i f p).prev.well_sized := by
  intro f
  induction f with
  | Empty =>
    intro hf i p hp
    cases i with
    | zero => exact ⟨hf, hp⟩
    | succ i => exact ⟨trivial, hp⟩
  | Filled label child sibling size ihc ihs =>
    intro hf i p hp
    obtain ⟨hsz, hc, hs⟩ := hf
    cases i with
    | zero => exact ⟨⟨hsz, hc, hs⟩, hp⟩
    | succ i =>
      simp only [focus_node_aux]
      by_cases h : i + 1 ≤ child.size
      · rw [if_pos h]
        exact ihc hc i _ ⟨hs, hp⟩
      · rw [if_neg h]
        exact ihs hs _ _ ⟨hc, hp⟩

/-- Restoring preserves the size invariant. -/
theorem ws_restore_aux :
    ∀ (p : ReturnNode), p.well_sized → ∀ (f : Node), f.well_sized →
      (restore_aux f p).well_sized := by
  intro p
  induction p with
  | Parent label prev sibling ih =>
    intro hp f hf
    exact ih hp.2 _ (Node.ws_new hf hp.1)
  | Sibling label prev child ih =>
    intro hp f hf
    exact ih hp.2 _ (Node.ws_new hp.1 hf)
  | Empty => intro _ f hf; exact hf

/-! ## Index accounting -/

/-- `restore_with_index_aux` restores like `restore_aux` and adds the
path's `idx_of` to the accumulator. -/
theorem restore_with_index_spec :
    ∀ (p : ReturnNode) (f : Node) (i : Nat),
      restore_with_index_aux f p i = (restore_aux f p, i + idx_of p) := by
  intro p
  induction p with
  | Parent label prev sibling ih =>
    intro f i
    simp only [restore_with_index_aux, restore_aux, idx_of, ih]
    congr 1
    omega
  | Sibling label prev child ih =>
    intro f i
    simp only [restore_with_index_aux, restore_aux, idx_of, ih]
    congr 1
    omega
  | Empty => intro f i; simp [restore_with_index_aux, restore_aux, idx_of]

/-- Focusing a valid pre-order index records a path whose `idx_of` grows by
exactly that index, and lands on a non-empty focus. -/
theorem focus_idx :
    ∀ (f : Node), f.well_sized → ∀ (i : Nat) (p : ReturnNode), i < f.size →
      idx_of (focus_node_aux i f p).prev = idx_of p + i ∧
        (focus_node_aux i f p).focus ≠ .Empty := by
  intro f
  induction f with
  | Empty =>
    intro _ i p h
    exact absurd h (by simp [Node.size])
  | Filled label child sibling size ihc ihs =>
    intro hf i p h
    obtain ⟨hsz, hc, hs⟩ := hf
    have hlt : i < size := h
    cases i with
    | zero =>
      refine ⟨rfl, ?_⟩
      show ¬ (Node.Filled label child sibling size) = Node.Empty
      simp
    | succ i =>
      simp only [focus_node_aux]
      by_cases hb : i + 1 ≤ child.size
      · rw [if_pos hb]
        obtain ⟨e, ne⟩ := ihc hc i (.Parent label p sibling) (by omega)
        refine ⟨?_, ne⟩
        rw [e]
        simp only [idx_of]
        omega
      · rw [if_neg hb]
        obtain ⟨e, ne⟩ :=
          ihs hs (i - child.size) (.Sibling label p child) (by omega)
        refine ⟨?_, ne⟩
        rw [e]
        simp only [idx_of]
        omega

/-! ## Pre-order labels through restoring and focusing -/

/-- The labels of a restored zipper: the path's pre-labels, then the focus's
labels, then the path's post-labels. -/
theorem restore_labels :
    ∀ (p : ReturnNode) (f : Node),
      (restore_aux f p).labels = path_pre p ++ f.labels ++ path_post p := by
  intro p
  induction p with
  | Parent label prev sibling ih =>
    intro f
    simp only [restore_aux, ih, Node.new, Node.labels, path_pre, path_post]
    simp [List.append_assoc]
  | Sibling label prev child ih =>
    intro f
    simp only [restore_aux, ih, Node.new, Node.labels, path_pre, path_post]
    simp [List.append_assoc]
  | Empty => intro f; simp [restore_aux, path_pre, path_post]

/-- For a well-sized path, the pre-labels count is exactly `idx_of`. -/
theorem path_pre_length :
    ∀ (p : ReturnNode), p.well_sized → (path_pre p).length = idx_of p := by
  intro p
  induction p with
  | Parent label prev sibling ih =>
    intro hp
    simp [path_pre, idx_of, ih hp.2]
    omega
  | Sibling label prev child ih =>
    intro hp
    simp [path_pre, idx_of, ih hp.2, Node.labels_length hp.1]
    omega
  | Empty => intro _; rfl

/-! ## Concatenation as chain replacement -/

/-- Restoring through the path built by `concat_aux` replaces the end of
the walked sibling chain. -/
theorem restore_concat_aux :
    ∀ (n : Node) (q : ReturnNode) (f : Node),
      restore_aux f (concat_aux n q) = restore_aux (chain_append n f) q := by
  intro n
  induction n with
  | Empty => intro q f; rfl
  | Filled label child sibling _ ihc ihs =>
    intro q f
    simp only [concat_aux, chain_append, ihs, restore_aux]

/-- `demote`'s chain walk builds the same path as `concat_aux`. -/
theorem restore_demote_walk :
    ∀ (n : Node) (q : ReturnNode) (f : Node),
      restore_aux f (demote_walk q n) = restore_aux (chain_append n f) q := by
  intro n
  induction n with
  | Empty => intro q f; rfl
  | Filled label child sibling _ ihc ihs =>
    intro q f
    simp only [demote_walk, chain_append, ihs, restore_aux]

/-- `concat` replaces the end of the left chain by the right root. -/
theorem concat_eq_chain_append :
    ∀ (l r : Node), r ≠ .Empty → concat l r = chain_append l r := by
  intro l r hr
  match r with
  | .Empty => exact absurd rfl hr
  | .Filled label child sibling size =>
    show restore_aux (Node.Filled label child sibling size) (concat_aux l .Empty) = _
    rw [restore_concat_aux]
    rfl

theorem chain_append_labels :
    ∀ (n f : Node), (chain_append n f).labels = n.labels ++ f.labels := by
  intro n
  induction n with
  | Empty => intro f; rfl
  | Filled label child sibling _ ihc ihs =>
    intro f
    simp [chain_append, Node.new, Node.labels, ihs]

theorem chain_append_ws :
    ∀ (n f : Node), n.well_sized → f.well_sized →
      (chain_append n f).well_sized := by
  intro n
  induction n with
  | Empty => intro f _ hf; exact hf
  | Filled label child sibling _ ihc ihs =>
    intro f hn hf
    exact Node.ws_new hn.2.1 (ihs f hn.2.2 hf)

theorem concat_labels :
    ∀ (l r : Node), (concat l r).labels = l.labels ++ r.labels := by
  intro l r
  match r with
  | .Empty => simp [concat, Node.labels]
  | .Filled label child sibling size =>
    rw [concat_eq_chain_append l _ (by simp), chain_append_labels]

theorem concat_ws :
    ∀ (l r : Node), l.well_sized → r.well_sized → (concat l r).well_sized := by
  intro l r hl hr
  match r with
  | .Empty => exact hl
  | .Filled label child sibling size =>
    rw [concat_eq_chain_append l _ (by simp)]
    exact chain_append_ws _ _ hl hr

/-! ## Refocusing a restored zipper -/

/-- Focusing a restored zipper at the path's own index plus an in-focus
offset retraces exactly the recorded path. -/
theorem refocus :
    ∀ (p : ReturnNode) (f : Node) (k : Nat), k < f.size →
      focus_node_aux (idx_of p + k) (restore_aux f p) .Empty
        = focus_node_aux k f p := by
  intro p
  induction p with
  | Empty =>
    intro f k _
    simp only [idx_of, restore_aux, Nat.zero_add]
  | Parent label prev sibling ih =>
    intro f k hk
    have harith : idx_of (ReturnNode.Parent label prev sibling) + k
        = idx_of prev + (k + 1) := by
      simp only [idx_of]; omega
    rw [harith]
    show focus_node_aux (idx_of prev + (k + 1))
        (restore_aux (Node.new label f sibling) prev) .Empty = _
    rw [ih (Node.new label f sibling) (k + 1) (by rw [Node.new_size]; omega)]
    show focus_node_aux (k + 1) (.Filled label f sibling _) prev = _
    simp only [focus_node_aux]
    rw [if_pos (by omega : k + 1 ≤ f.size)]
  | Sibling label prev child ih =>
    intro f k hk
    have harith : idx_of (ReturnNode.Sibling label prev child) + k
        = idx_of prev + (1 + child.size + k) := by
      simp only [idx_of]; omega
    rw [harith]
    show focus_node_aux (idx_of prev + (1 + child.size + k))
        (restore_aux (Node.new label child f) prev) .Empty = _
    rw [ih (Node.new label child f) (1 + child.size + k)
      (by rw [Node.new_size]; omega)]
    have hform : 1 + child.size + k = (child.size + k) + 1 := by omega
    rw [hform]
    show focus_node_aux ((child.size + k) + 1) (.Filled label child f _) prev = _
    simp only [focus_node_aux]
    rw [if_neg (by omega : ¬ child.size + k + 1 ≤ child.size)]
    have hsub : child.size + k - child.size = k := by omega
    rw [hsub]

/-! ## `find_label` as list lookup -/

/-- On a well-sized forest, `find_label` is lookup in the pre-order label
sequence (`none` exactly on out-of-range indices). -/
theorem find_label_getElem :
    ∀ (f : Node), f.well_sized → ∀ (i : Nat),
      find_label_aux i f = f.labels[i]? := by
  intro f
  induction f with
  | Empty =>
    intro _ i
    cases i with
    | zero => rfl
    | succ i => rfl
  | Filled label child sibling size ihc ihs =>
    intro hf i
    obtain ⟨hsz, hc, hs⟩ := hf
    cases i with
    | zero => simp [find_label_aux, Node.labels]
    | succ i =>
      simp only [find_label_aux, Node.labels, List.getElem?_cons_succ]
      have hlen : child.labels.length = child.size := Node.labels_length hc
      by_cases hb : i + 1 ≤ child.size
      · rw [if_pos hb, List.getElem?_append_left (by omega), ihc hc]
      · rw [if_neg hb, List.getElem?_append_right (by omega), ihs hs, hlen]

/-! ## Decidability of the size invariant (for concrete checks) -/

instance Node.decWellSized : (f : Node) → Decidable f.well_sized
  | .Empty => isTrue trivial
  | .Filled _ child sibling size =>
    match Nat.decEq size (1 + child.size + sibling.size),
        Node.decWellSized child, Node.decWellSized sibling with
    | isTrue h1, isTrue h2, isTrue h3 => isTrue ⟨h1, h2, h3⟩
    | isFalse h1, _, _ => isFalse fun h => h1 h.1
    | _, isFalse h2, _ => isFalse fun h => h2 h.2.1
    | _, _, isFalse h3 => isFalse fun h => h3 h.2.2

/-! ## Behavior of the operations on an empty focus -/

theorem move_forward_empty (z : ForestZipper) (h : z.focus = .Empty) :
    z.move_forward = z := by
  obtain ⟨f, p⟩ := z
  cases f with
  | Empty => rfl
  | Filled label child sibling size => simp at h

theorem move_backward_empty (z : ForestZipper) (h : z.focus = .Empty) :
    z.move_backward = z := by
  obtain ⟨f, p⟩ := z
  cases f with
  | Empty => cases p <;> rfl
  | Filled label child sibling size => simp at h

theorem promote_empty (z : ForestZipper) (h : z.focus = .Empty) :
    z.promote = z := by
  obtain ⟨f, p⟩ := z
  cases f with
  | Empty => rfl
  | Filled label child sibling size => simp at h

theorem demote_empty (z : ForestZipper) (h : z.focus = .Empty) :
    z.demote = z := by
  obtain ⟨f, p⟩ := z
  cases f with
  | Empty => rfl
  | Filled label child sibling size => simp at h

theorem set_label_empty_focus (F : Node) (i : Nat) (t : String)
    (h : (F.focus_node i).focus = .Empty) :
    F.set_label i t = (F.focus_node i).restore := by
  simp only [Node.set_label, ForestZipper.restore, h]

theorem delete_empty_focus (F : Node) (i : Nat)
    (h : (F.focus_node i).focus = .Empty) :
    F.delete i = (F.focus_node i).restore := by
  simp only [Node.delete, ForestZipper.restore, h]

/-! ## Claims -/

/-- C1: for every well-sized forest `F` and every pre-order index
`0 ≤ i < F.size`, building the zipper focused at `i` and then restoring it
with no edit returns exactly `F`; and in the forest with roots "0", "1"
(children "2","3"), "4", focusing index 1 yields the subtree equal to
forest `[1[2,3],4]`, focusing index 2 yields the subtree equal to forest
`[2,3]`, and both restore back to the original forest. -/
theorem spec_focus_restore_roundtrip (F : Node) (i : Nat)
    (hF : F.well_sized) (_hi : i < F.size) :
    (F.focus_node i).restore = F
      ∧ (example_forest.focus_node 1).focus
          = Node.new "1" (Node.new "2" .Empty (Node.new "3" .Empty .Empty))
              (Node.new "4" .Empty .Empty)
      ∧ (example_forest.focus_node 2).focus
          = Node.new "2" .Empty (Node.new "3" .Empty .Empty)
      ∧ (example_forest.focus_node 1).restore = example_forest
      ∧ (example_forest.focus_node 2).restore = example_forest :=
  ⟨restore_focus_aux F hF i .Empty, rfl, rfl, rfl, rfl⟩

theorem spec_focus_restore_roundtrip_witness :
    example_forest.well_sized ∧ 1 < example_forest.size ∧
      (example_forest.focus_node 1).restore = example_forest :=
  ⟨by decide, by decide,
    (spec_focus_restore_roundtrip example_forest 1 (by decide) (by decide)).1⟩

/-- C9: on a well-sized forest, `find_label` returns the label at the given
pre-order position (lookup in the pre-order label sequence) for every index
below the size, and fails (`none`, modelling the Rust panic) exactly for
the indices at or above the size. -/
theorem spec_find_label_total (F : Node) (hF : F.well_sized) :
    (∀ i, F.find_label i = F.labels[i]?)
      ∧ (∀ i, (F.find_label i).isSome ↔ i < F.size) := by
  refine ⟨fun i => find_label_getElem F hF i, fun i => ?_⟩
  rw [Node.find_label, find_label_getElem F hF i]
  have hlen : F.labels.length = F.size := Node.labels_length hF
  constructor
  · intro h
    by_contra hge
    rw [List.getElem?_eq_none (by omega)] at h
    simp at h
  · intro h
    rw [List.getElem?_eq_getElem (by omega)]
    rfl

theorem spec_find_label_total_witness :
    example_forest.well_sized ∧
      example_forest.find_label 3 = example_forest.labels[3]? :=
  ⟨by decide, (spec_find_label_total example_forest (by decide)).1 3⟩

/-- C10: for every well-sized forest `F` and out-of-range index
`i ≥ F.size`, focusing yields an `Empty`-focused zipper whose path still
restores `F`, and each mutating operation (`set_label`, `delete`,
`move_forward`, `move_backward`, `promote`, `demote`) returns the forest
`F` unchanged. -/
theorem spec_invalid_index_noop (F : Node) (i : Nat) (t : String)
    (hF : F.well_sized) (hi : F.size ≤ i) :
    (F.focus_node i).focus = .Empty
      ∧ (F.focus_node i).restore = F
      ∧ F.set_label i t = F
      ∧ F.delete i = F
      ∧ (F.move_forward i).1 = F
      ∧ (F.move_backward i).1 = F
      ∧ (F.promote i).1 = F
      ∧ (F.demote i).1 = F := by
  have hempty : (F.focus_node i).focus = .Empty := focus_empty_of_ge F hF i .Empty hi
  have hrest : (F.focus_node i).restore = F := restore_focus_aux F hF i .Empty
  have hpair : ∀ z : ForestZipper, z.restore_with_index.1 = z.restore := by
    intro z
    rw [ForestZipper.restore_with_index, restore_with_index_spec]
    rfl
  refine ⟨hempty, hrest, ?_, ?_, ?_, ?_, ?_, ?_⟩
  · rw [set_label_empty_focus F i t hempty, hrest]
  · rw [delete_empty_focus F i hempty, hrest]
  · rw [Node.move_forward, move_forward_empty _ hempty, hpair, hrest]
  · rw [Node.move_backward, move_backward_empty _ hempty, hpair, hrest]
  · rw [Node.promote, promote_empty _ hempty, hpair, hrest]
  · rw [Node.demote, demote_empty _ hempty, hpair, hrest]

theorem spec_invalid_index_noop_witness :
    example_forest.well_sized ∧ example_forest.size ≤ 9 ∧
      example_forest.set_label 9 "X" = example_forest :=
  ⟨by decide, by decide,
    (spec_invalid_index_noop example_forest 9 "X" (by decide) (by decide)).2.2.1⟩

/-! ## The size invariant through each operation -/

theorem ws_move_forward (z : ForestZipper) (hf : z.focus.well_sized)
    (hp : z.prev.well_sized) :
    z.move_forward.focus.well_sized ∧ z.move_forward.prev.well_sized := by
  obtain ⟨f, p⟩ := z
  cases f with
  | Empty => exact ⟨trivial, hp⟩
  | Filled label child sibling size =>
    obtain ⟨hsz, hc, hs⟩ := hf
    cases sibling with
    | Empty => exact ⟨Node.ws_new hc trivial, hp⟩
    | Filled l2 c2 s2 sz2 =>
      obtain ⟨hsz2, hc2, hs2⟩ := hs
      exact ⟨Node.ws_new hc hs2, hc2, hp⟩

theorem ws_move_backward (z : ForestZipper) (hf : z.focus.well_sized)
    (hp : z.prev.well_sized) :
    z.move_backward.focus.well_sized ∧ z.move_backward.prev.well_sized := by
  obtain ⟨f, p⟩ := z
  cases p with
  | Sibling l pp c =>
    obtain ⟨hc, hpp⟩ := hp
    cases f with
    | Empty => exact ⟨trivial, hc, hpp⟩
    | Filled l2 c2 s2 sz2 =>
      obtain ⟨hsz2, hc2, hs2⟩ := hf
      exact ⟨Node.ws_new hc2 (Node.ws_new hc hs2), hpp⟩
  | Parent l pp s => exact ⟨hf, hp⟩
  | Empty => exact ⟨hf, hp⟩

theorem ws_promote_loop (rl : String) (rc : Node) (hrc : rc.well_sized) :
    ∀ (p : ReturnNode) (f : Node), p.well_sized → f.well_sized →
      (promote_loop rl rc f p).focus.well_sized ∧
        (promote_loop rl rc f p).prev.well_sized := by
  intro p
  induction p with
  | Parent l pp s ih =>
    intro f hp hf
    exact ⟨Node.ws_new hrc hp.1, hf, hp.2⟩
  | Sibling l pp c ih =>
    intro f hp hf
    exact ih _ hp.2 (Node.ws_new hp.1 hf)
  | Empty =>
    intro f _ hf
    exact ⟨Node.ws_new hrc hf, trivial⟩

theorem ws_demote_walk :
    ∀ (n : Node) (q : ReturnNode), n.well_sized → q.well_sized →
      (demote_walk q n).well_sized := by
  intro n
  induction n with
  | Empty => intro q _ hq; exact hq
  | Filled l c s sz ihc ihs =>
    intro q hn hq
    exact ihs _ hn.2.2 ⟨hn.2.1, hq⟩

theorem ws_promote (z : ForestZipper) (hf : z.focus.well_sized)
    (hp : z.prev.well_sized) :
    z.promote.focus.well_sized ∧ z.promote.prev.well_sized := by
  obtain ⟨f, p⟩ := z
  cases f with
  | Empty => exact ⟨trivial, hp⟩
  | Filled label child sibling size =>
    obtain ⟨hsz, hc, hs⟩ := hf
    exact ws_promote_loop label child hc p sibling hp hs

theorem ws_demote (z : ForestZipper) (hf : z.focus.well_sized)
    (hp : z.prev.well_sized) :
    z.demote.focus.well_sized ∧ z.demote.prev.well_sized := by
  obtain ⟨f, p⟩ := z
  cases f with
  | Empty => exact ⟨trivial, hp⟩
  | Filled label child sibling size =>
    obtain ⟨hsz, hc, hs⟩ := hf
    cases p with
    | Sibling l pp c =>
      obtain ⟨hcc, hpp⟩ := hp
      exact ⟨Node.ws_new hc trivial, ws_demote_walk c _ hcc ⟨hs, hpp⟩⟩
    | Parent l pp s => exact ⟨Node.ws_new hc hs, hp⟩
    | Empty => exact ⟨Node.ws_new hc hs, trivial⟩

/-- C2: after each public operation (`set_label`, `prepend`,
`move_forward`, `move_backward`, `promote`, `demote`, `delete`, `concat`)
on well-sized forests, every reachable subtree of the result satisfies the
size invariant: each stored `size` field equals
`1 + size child + size sibling` (0 for `Empty`). -/
theorem spec_size_invariant (F G : Node) (i : Nat) (t : String)
    (hF : F.well_sized) (hG : G.well_sized) :
    (F.set_label i t).well_sized
      ∧ (F.prepend t).well_sized
      ∧ (F.move_forward i).1.well_sized
      ∧ (F.move_backward i).1.well_sized
      ∧ (F.promote i).1.well_sized
      ∧ (F.demote i).1.well_sized
      ∧ (F.delete i).well_sized
      ∧ (concat F G).well_sized := by
  obtain ⟨hzf, hzp⟩ := ws_focus_aux F hF i .Empty trivial
  have hpair : ∀ z : ForestZipper, z.restore_with_index.1 = z.restore := by
    intro z
    rw [ForestZipper.restore_with_index, restore_with_index_spec]
    rfl
  refine ⟨?_, ?_, ?_, ?_, ?_, ?_, ?_, ?_⟩
  · simp only [Node.set_label]
    apply ws_restore_aux _ hzp
    cases hfz : (F.focus_node i).focus with
    | Empty => exact trivial
    | Filled l c s sz =>
      have h2 : (Node.Filled l c s sz).well_sized := by
        have h3 : (F.focus_node i).focus.well_sized := hzf
        rwa [hfz] at h3
      exact ⟨h2.1, h2.2.1, h2.2.2⟩
  · exact Node.ws_new Node.ws_empty hF
  · rw [Node.move_forward, hpair, ForestZipper.restore]
    obtain ⟨h1, h2⟩ := ws_move_forward (F.focus_node i) hzf hzp
    exact ws_restore_aux _ h2 _ h1
  · rw [Node.move_backward, hpair, ForestZipper.restore]
    obtain ⟨h1, h2⟩ := ws_move_backward (F.focus_node i) hzf hzp
    exact ws_restore_aux _ h2 _ h1
  · rw [Node.promote, hpair, ForestZipper.restore]
    obtain ⟨h1, h2⟩ := ws_promote (F.focus_node i) hzf hzp
    exact ws_restore_aux _ h2 _ h1
  · rw [Node.demote, hpair, ForestZipper.restore]
    obtain ⟨h1, h2⟩ := ws_demote (F.focus_node i) hzf hzp
    exact ws_restore_aux _ h2 _ h1
  · simp only [Node.delete]
    apply ws_restore_aux _ hzp
    cases hfz : (F.focus_node i).focus with
    | Empty => exact trivial
    | Filled l c s sz =>
      have h2 : (Node.Filled l c s sz).well_sized := by
        have h3 : (F.focus_node i).focus.well_sized := hzf
        rwa [hfz] at h3
      exact concat_ws _ _ h2.2.1 h2.2.2
  · exact concat_ws F G hF hG

theorem spec_size_invariant_witness :
    example_forest.well_sized ∧
      (example_forest.set_label 1 "X").well_sized :=
  ⟨by decide,
    (spec_size_invariant example_forest example_forest 1 "X"
      (by decide) (by decide)).1⟩

/-! ## List helpers for positional reasoning -/

theorem list_eraseIdx_at_append (A : List String) (x : String) (T : List String) :
    (A ++ x :: T).eraseIdx A.length = A ++ T := by
  induction A with
  | nil => rfl
  | cons a A ih => simp [List.eraseIdx, ih]

theorem list_getElem_at_append (A : List String) (x : String) (T : List String) :
    (A ++ x :: T)[A.length]? = some x := by
  rw [List.getElem?_append_right (le_refl _)]
  simp

theorem list_getElem_ne_append (A : List String) (x y : String) (T : List String)
    (j : Nat) (hj : j ≠ A.length) :
    (A ++ x :: T)[j]? = (A ++ y :: T)[j]? := by
  by_cases h : j < A.length
  · rw [List.getElem?_append_left h, List.getElem?_append_left h]
  · have h2 : A.length ≤ j := by omega
    rw [List.getElem?_append_right h2, List.getElem?_append_right h2]
    obtain ⟨k, hk⟩ : ∃ k, j - A.length = k + 1 := ⟨j - A.length - 1, by omega⟩
    rw [hk]
    simp

/-! ## The standard decomposition at a valid focus -/

/-- Everything `focus_node` guarantees at a valid index on a well-sized
forest: a well-sized non-empty focus and path, the path's index and
pre-label count both equal to the focused index, and the forest's label
sequence and value recovered from the zipper. -/
theorem focus_decomp (F : Node) (i : Nat) (hF : F.well_sized) (hi : i < F.size) :
    (F.focus_node i).focus.well_sized
      ∧ (F.focus_node i).prev.well_sized
      ∧ idx_of (F.focus_node i).prev = i
      ∧ (path_pre (F.focus_node i).prev).length = i
      ∧ F.labels = path_pre (F.focus_node i).prev
          ++ (F.focus_node i).focus.labels ++ path_post (F.focus_node i).prev
      ∧ restore_aux (F.focus_node i).focus (F.focus_node i).prev = F
      ∧ (F.focus_node i).focus ≠ .Empty := by
  obtain ⟨hzf, hzp⟩ := ws_focus_aux F hF i .Empty trivial
  obtain ⟨hidx, hne⟩ := focus_idx F hF i .Empty hi
  have hidx' : idx_of (F.focus_node i).prev = i := by
    rw [Node.focus_node, hidx]
    simp [idx_of]
  have hrest : restore_aux (F.focus_node i).focus (F.focus_node i).prev = F :=
    restore_focus_aux F hF i .Empty
  refine ⟨hzf, hzp, hidx', ?_, ?_, hrest, hne⟩
  · have h2 : (path_pre (F.focus_node i).prev).length = idx_of (F.focus_node i).prev :=
      path_pre_length _ hzp
    rw [h2, hidx']
  · conv_lhs => rw [← hrest]
    rw [restore_labels]

/-- C4: deleting a valid index splices out exactly that pre-order position:
the result's label sequence is the original's with position `i` erased, and
at the position formerly occupied by `i` it continues with the former
focus's child labels immediately followed by its sibling labels; deleting
"1" from the forest `0,1[2,3],4` yields `0,2,3,4`. -/
theorem spec_delete_splice (F : Node) (i : Nat)
    (hF : F.well_sized) (hi : i < F.size) :
    (F.delete i).labels = F.labels.eraseIdx i
      ∧ (∀ l c s sz, (F.focus_node i).focus = .Filled l c s sz →
          ∃ rest, (F.delete i).labels
            = F.labels.take i ++ (c.labels ++ (s.labels ++ rest)))
      ∧ (example_forest.delete 1).labels = ["0", "2", "3", "4"] := by
  obtain ⟨hzf, hzp, hidx, hpre, hlab, hrest, hne⟩ := focus_decomp F i hF hi
  cases hfz : (F.focus_node i).focus with
  | Empty => exact absurd hfz hne
  | Filled l c s sz =>
    have hdel : F.delete i = restore_aux (concat c s) (F.focus_node i).prev := by
      simp only [Node.delete, hfz]
    have hFlab : F.labels = path_pre (F.focus_node i).prev
        ++ (l :: (c.labels ++ (s.labels ++ path_post (F.focus_node i).prev))) := by
      rw [hlab, hfz]
      simp [Node.labels, List.append_assoc]
    have hDlab : (F.delete i).labels = path_pre (F.focus_node i).prev
        ++ (c.labels ++ (s.labels ++ path_post (F.focus_node i).prev)) := by
      rw [hdel, restore_labels, concat_labels]
      simp [List.append_assoc]
    refine ⟨?_, ?_, rfl⟩
    · have he := list_eraseIdx_at_append (path_pre (F.focus_node i).prev) l
        (c.labels ++ (s.labels ++ path_post (F.focus_node i).prev))
      rw [hpre] at he
      rw [hDlab, hFlab, he]
    · intro l' c' s' sz' hfz'
      injection hfz' with h1 h2 h3 h4
      subst h2; subst h3
      refine ⟨path_post (F.focus_node i).prev, ?_⟩
      have htake : F.labels.take i = path_pre (F.focus_node i).prev := by
        have ht := List.take_left (path_pre (F.focus_node i).prev)
          (l :: (c.labels ++ (s.labels ++ path_post (F.focus_node i).prev)))
        rw [hpre] at ht
        rw [hFlab, ht]
      rw [hDlab, htake]

theorem spec_delete_splice_witness :
    example_forest.well_sized ∧ 1 < example_forest.size ∧
      (example_forest.delete 1).labels = example_forest.labels.eraseIdx 1 :=
  ⟨by decide, by decide,
    (spec_delete_splice example_forest 1 (by decide) (by decide)).1⟩

/-- C8: `set_label` replaces exactly one label: reading index `i` of
`set_label F i t` gives `t`, every other valid index reads the same label
as in `F`, and refocusing the result at `i` shows the focused node's
child, sibling and size — and the whole surrounding path — unchanged. -/
theorem spec_set_label_frame (F : Node) (i : Nat) (t : String)
    (hF : F.well_sized) (hi : i < F.size) :
    (F.set_label i t).find_label i = some t
      ∧ (∀ j, j < F.size → j ≠ i →
          (F.set_label i t).find_label j = F.find_label j)
      ∧ (∀ l c s sz, (F.focus_node i).focus = .Filled l c s sz →
          (F.set_label i t).focus_node i
            = ⟨.Filled t c s sz, (F.focus_node i).prev⟩) := by
  obtain ⟨hzf, hzp, hidx, hpre, hlab, hrest, hne⟩ := focus_decomp F i hF hi
  cases hfz : (F.focus_node i).focus with
  | Empty => exact absurd hfz hne
  | Filled l c s sz =>
    have hwf : (Node.Filled l c s sz).well_sized := by rwa [hfz] at hzf
    have hwt : (Node.Filled t c s sz).well_sized := ⟨hwf.1, hwf.2.1, hwf.2.2⟩
    have hset : F.set_label i t
        = restore_aux (.Filled t c s sz) (F.focus_node i).prev := by
      simp only [Node.set_label, hfz]
    have hwsR : (F.set_label i t).well_sized := by
      rw [hset]
      exact ws_restore_aux _ hzp _ hwt
    have hFlab : F.labels = path_pre (F.focus_node i).prev
        ++ (l :: (c.labels ++ (s.labels ++ path_post (F.focus_node i).prev))) := by
      rw [hlab, hfz]
      simp [Node.labels, List.append_assoc]
    have hSlab : (F.set_label i t).labels = path_pre (F.focus_node i).prev
        ++ (t :: (c.labels ++ (s.labels ++ path_post (F.focus_node i).prev))) := by
      rw [hset, restore_labels]
      simp [Node.labels, List.append_assoc]
    refine ⟨?_, ?_, ?_⟩
    · have hg := list_getElem_at_append (path_pre (F.focus_node i).prev) t
        (c.labels ++ (s.labels ++ path_post (F.focus_node i).prev))
      rw [hpre] at hg
      rw [Node.find_label, find_label_getElem _ hwsR, hSlab, hg]
    · intro j hj hne2
      rw [Node.find_label, find_label_getElem _ hwsR, Node.find_label,
        find_label_getElem _ hF, hSlab, hFlab]
      exact list_getElem_ne_append _ t l _ j (by omega)
    · intro l' c' s' sz' hfz'
      injection hfz' with h1 h2 h3 h4
      subst h2; subst h3; subst h4
      rw [Node.focus_node, hset]
      have hr := refocus (F.focus_node i).prev (Node.Filled t c s sz) 0
        (by exact Node.size_pos_of_ws hwt)
      rw [hidx, Nat.add_zero] at hr
      exact hr

theorem spec_set_label_frame_witness :
    example_forest.well_sized ∧ 2 < example_forest.size ∧
      (example_forest.set_label 2 "X").find_label 2 = some "X" :=
  ⟨by decide, by decide,
    (spec_set_label_frame example_forest 2 "X" (by decide) (by decide)).1⟩

/-- `restore_with_index` on a literal zipper. -/
theorem restore_with_index_mk (f : Node) (p : ReturnNode) :
    ForestZipper.restore_with_index ⟨f, p⟩ = (restore_aux f p, idx_of p) := by
  have h := restore_with_index_spec p f 0
  rw [Nat.zero_add] at h
  exact h

/-- C5: on a valid index whose node has a non-empty next sibling,
`move_forward` exchanges the focused subtree with that sibling — each keeps
its own child, the rest of the chain and the whole surrounding path are
untouched — and returns the new index `i + 1 + size` of the former next
sibling's child; with no next sibling it returns `(F, i)` unchanged. -/
theorem spec_move_forward (F : Node) (i : Nat)
    (hF : F.well_sized) (hi : i < F.size) :
    (∀ l c l2 c2 s2 sz sz2,
        (F.focus_node i).focus = .Filled l c (.Filled l2 c2 s2 sz2) sz →
        F.move_forward i
          = (restore_aux (Node.new l2 c2 (Node.new l c s2)) (F.focus_node i).prev,
             i + 1 + c2.size))
      ∧ (∀ l c sz, (F.focus_node i).focus = .Filled l c .Empty sz →
          F.move_forward i = (F, i)) := by
  obtain ⟨hzf, hzp, hidx, hpre, hlab, hrest, hne⟩ := focus_decomp F i hF hi
  constructor
  · intro l c l2 c2 s2 sz sz2 hfz
    have hz : F.focus_node i
        = ⟨.Filled l c (.Filled l2 c2 s2 sz2) sz, (F.focus_node i).prev⟩ := by
      rw [← hfz]
    rw [Node.move_forward, hz]
    show ForestZipper.restore_with_index
        ⟨Node.new l c s2, .Sibling l2 (F.focus_node i).prev c2⟩ = _
    rw [restore_with_index_mk]
    have harith : idx_of (ReturnNode.Sibling l2 (F.focus_node i).prev c2)
        = i + 1 + c2.size := by
      simp only [idx_of, hidx]
      omega
    rw [harith]
    rfl
  · intro l c sz hfz
    have hwf : (Node.Filled l c .Empty sz).well_sized := by rwa [hfz] at hzf
    have hz : F.focus_node i
        = ⟨.Filled l c .Empty sz, (F.focus_node i).prev⟩ := by
      rw [← hfz]
    rw [Node.move_forward, hz]
    show ForestZipper.restore_with_index
        ⟨Node.new l c .Empty, (F.focus_node i).prev⟩ = _
    rw [restore_with_index_mk, Node.new_eq_of_ws hwf]
    rw [hfz] at hrest
    rw [hrest, hidx]

theorem spec_move_forward_witness :
    example_forest.well_sized ∧ 0 < example_forest.size ∧
      example_forest.move_forward 0
        = (restore_aux
            (Node.new "1" (Node.new "2" .Empty (Node.new "3" .Empty .Empty))
              (Node.new "0" .Empty (Node.new "4" .Empty .Empty)))
            (example_forest.focus_node 0).prev,
           0 + 1 + (Node.new "2" .Empty (Node.new "3" .Empty .Empty)).size) :=
  ⟨by decide, by decide,
    (spec_move_forward example_forest 0 (by decide) (by decide)).1
      "0" .Empty "1" (Node.new "2" .Empty (Node.new "3" .Empty .Empty))
      (Node.new "4" .Empty .Empty) 5 4 (by decide)⟩

/-- C7: on a valid index whose node has a non-empty next sibling,
`move_forward` followed by `move_backward` at the returned index restores
the original forest (and the original index): the two swaps are mutually
inverse. -/
theorem spec_swap_involution (F : Node) (i : Nat)
    (hF : F.well_sized) (hi : i < F.size) :
    ∀ l c l2 c2 s2 sz sz2,
      (F.focus_node i).focus = .Filled l c (.Filled l2 c2 s2 sz2) sz →
      Node.move_backward (F.move_forward i).1 (F.move_forward i).2 = (F, i) := by
  obtain ⟨hzf, hzp, hidx, hpre, hlab, hrest, hne⟩ := focus_decomp F i hF hi
  intro l c l2 c2 s2 sz sz2 hfz
  have hwf : (Node.Filled l c (.Filled l2 c2 s2 sz2) sz).well_sized := by
    rwa [hfz] at hzf
  have hws2 : (Node.Filled l2 c2 s2 sz2).well_sized := hwf.2.2
  have hz : F.focus_node i
      = ⟨.Filled l c (.Filled l2 c2 s2 sz2) sz, (F.focus_node i).prev⟩ := by
    rw [← hfz]
  have hmf : F.move_forward i
      = (restore_aux (Node.new l c s2)
          (.Sibling l2 (F.focus_node i).prev c2),
         idx_of (ReturnNode.Sibling l2 (F.focus_node i).prev c2)) := by
    rw [Node.move_forward, hz]
    show ForestZipper.restore_with_index
        ⟨Node.new l c s2, .Sibling l2 (F.focus_node i).prev c2⟩ = _
    rw [restore_with_index_mk]
  rw [hmf]
  show Node.move_backward (restore_aux (Node.new l c s2)
      (.Sibling l2 (F.focus_node i).prev c2))
      (idx_of (ReturnNode.Sibling l2 (F.focus_node i).prev c2)) = (F, i)
  have hrf := refocus (ReturnNode.Sibling l2 (F.focus_node i).prev c2)
      (Node.new l c s2) 0 (Node.new_size_pos l c s2)
  rw [Nat.add_zero] at hrf
  rw [Node.move_backward, Node.focus_node, hrf]
  show ForestZipper.restore_with_index
      ⟨Node.new l c (Node.new l2 c2 s2), (F.focus_node i).prev⟩ = (F, i)
  rw [restore_with_index_mk, Node.new_eq_of_ws hws2, Node.new_eq_of_ws hwf]
  rw [hfz] at hrest
  rw [hrest, hidx]

theorem spec_swap_involution_witness :
    example_forest.well_sized ∧ 0 < example_forest.size ∧
      Node.move_backward (example_forest.move_forward 0).1
        (example_forest.move_forward 0).2 = (example_forest, 0) :=
  ⟨by decide, by decide,
    spec_swap_involution example_forest 0 (by decide) (by decide)
      "0" .Empty "1" (Node.new "2" .Empty (Node.new "3" .Empty .Empty))
      (Node.new "4" .Empty .Empty) 5 4 (by decide)⟩

/-- Walking a chain in `demote` advances the path index by the chain's
size. -/
theorem idx_demote_walk :
    ∀ (n : Node) (q : ReturnNode), n.well_sized →
      idx_of (demote_walk q n) = idx_of q + n.size := by
  intro n
  induction n with
  | Empty => intro q _; simp [demote_walk, Node.size]
  | Filled l c s sz ihc ihs =>
    intro q hn
    simp only [demote_walk]
    rw [ihs _ hn.2.2]
    have hsz : sz = 1 + c.size + s.size := hn.1
    show idx_of (ReturnNode.Sibling l q c) + s.size = idx_of q + sz
    simp only [idx_of]
    omega

/-- C6: on a valid index, if the focused node has an immediately preceding
sibling then `demote` re-hangs the focused subtree (label and child; its
following siblings close the gap) as the last child of that sibling and
returns the node's pre-order index, at which the same label is still found;
with no preceding sibling the forest is returned unchanged with the same
index. -/
theorem spec_demote (F : Node) (i : Nat)
    (hF : F.well_sized) (hi : i < F.size) :
    ∀ rl rc si sz, (F.focus_node i).focus = .Filled rl rc si sz →
      (∀ l p c, (F.focus_node i).prev = .Sibling l p c →
          F.demote i
            = (restore_aux (Node.new l (concat c (Node.new rl rc .Empty)) si) p, i)
            ∧ (F.demote i).1.find_label i = F.find_label i)
        ∧ (∀ l p s, (F.focus_node i).prev = .Parent l p s →
            F.demote i = (F, i))
        ∧ ((F.focus_node i).prev = .Empty → F.demote i = (F, i)) := by
  obtain ⟨hzf, hzp, hidx, hpre, hlab, hrest, hne⟩ := focus_decomp F i hF hi
  intro rl rc si sz hfz
  have hwf : (Node.Filled rl rc si sz).well_sized := by rwa [hfz] at hzf
  refine ⟨?_, ?_, ?_⟩
  · intro l p c hpz
    have hz : F.focus_node i = ⟨.Filled rl rc si sz, .Sibling l p c⟩ := by
      rw [← hfz, ← hpz]
    have hpws : (ReturnNode.Sibling l p c).well_sized := by rwa [hpz] at hzp
    have hXne : (Node.new rl rc .Empty) ≠ .Empty := by simp [Node.new]
    have hd1 : restore_aux (Node.new rl rc .Empty) (demote_walk (.Parent l p si) c)
        = restore_aux (Node.new l (concat c (Node.new rl rc .Empty)) si) p := by
      rw [restore_demote_walk, concat_eq_chain_append c _ hXne]
      rfl
    have hd2 : idx_of (demote_walk (.Parent l p si) c) = i := by
      rw [idx_demote_walk c _ hpws.1]
      have h3 : idx_of (F.focus_node i).prev = i := hidx
      rw [hpz] at h3
      simp only [idx_of] at h3 ⊢
      omega
    have hmain : F.demote i
        = (restore_aux (Node.new l (concat c (Node.new rl rc .Empty)) si) p, i) := by
      rw [Node.demote, hz]
      show ForestZipper.restore_with_index
          ⟨Node.new rl rc .Empty, demote_walk (.Parent l p si) c⟩ = _
      rw [restore_with_index_mk, hd1, hd2]
    refine ⟨hmain, ?_⟩
    have hws_res : (restore_aux
        (Node.new l (concat c (Node.new rl rc .Empty)) si) p).well_sized :=
      ws_restore_aux p hpws.2 _
        (Node.ws_new (concat_ws _ _ hpws.1 (Node.ws_new hwf.2.1 trivial)) hwf.2.2)
    have hlabs : (restore_aux
        (Node.new l (concat c (Node.new rl rc .Empty)) si) p).labels
          = F.labels := by
      rw [restore_labels, hlab, hfz, hpz]
      simp only [Node.new, Node.labels, concat_labels, path_pre, path_post]
      simp [List.append_assoc]
    rw [hmain]
    show (restore_aux
        (Node.new l (concat c (Node.new rl rc .Empty)) si) p).find_label i
          = F.find_label i
    rw [Node.find_label, Node.find_label, find_label_getElem _ hws_res,
      find_label_getElem F hF, hlabs]
  · intro l p s hpz
    have hz : F.focus_node i = ⟨.Filled rl rc si sz, .Parent l p s⟩ := by
      rw [← hfz, ← hpz]
    rw [Node.demote, hz]
    show ForestZipper.restore_with_index
        ⟨Node.new rl rc si, .Parent l p s⟩ = (F, i)
    rw [restore_with_index_mk, Node.new_eq_of_ws hwf]
    rw [hfz, hpz] at hrest
    rw [hrest]
    have h3 : idx_of (F.focus_node i).prev = i := hidx
    rw [hpz] at h3
    rw [h3]
  · intro hpz
    have hz : F.focus_node i = ⟨.Filled rl rc si sz, .Empty⟩ := by
      rw [← hfz, ← hpz]
    rw [Node.demote, hz]
    show ForestZipper.restore_with_index
        ⟨Node.new rl rc si, .Empty⟩ = (F, i)
    rw [restore_with_index_mk, Node.new_eq_of_ws hwf]
    rw [hfz, hpz] at hrest
    rw [hrest]
    have h3 : idx_of (F.focus_node i).prev = i := hidx
    rw [hpz] at h3
    rw [h3]

theorem spec_demote_witness :
    example_forest.well_sized ∧ 3 < example_forest.size ∧
      example_forest.demote 3
        = (restore_aux
            (Node.new "2" (concat .Empty (Node.new "3" .Empty .Empty)) .Empty)
            (.Parent "1" (.Sibling "0" .Empty .Empty)
              (Node.new "4" .Empty .Empty)), 3) :=
  ⟨by decide, by decide,
    ((spec_demote example_forest 3 (by decide) (by decide)
      "3" .Empty .Empty 1 (by decide)).1 "2"
      (.Parent "1" (.Sibling "0" .Empty .Empty) (Node.new "4" .Empty .Empty))
      .Empty (by decide)).1⟩

/-! ## Promote: the climbing loop characterised by `climb` -/

/-- Total size of the trees recorded along a path. -/
def path_size : ReturnNode → Nat
  | .Empty => 0
  | .Parent _ prev sibling => 1 + sibling.size + path_size prev
  | .Sibling _ prev child => 1 + child.size + path_size prev

theorem restore_size :
    ∀ (p : ReturnNode) (f : Node),
      (restore_aux f p).size = f.size + path_size p := by
  intro p
  induction p with
  | Parent l pp s ih =>
    intro f
    show (restore_aux (Node.new l f s) pp).size = _
    rw [ih]
    simp only [Node.new_size, path_size]
    omega
  | Sibling l pp c ih =>
    intro f
    show (restore_aux (Node.new l c f) pp).size = _
    rw [ih]
    simp only [Node.new_size, path_size]
    omega
  | Empty => intro f; simp [restore_aux, path_size]

theorem promote_loop_size (rl : String) (rc : Node) :
    ∀ (p : ReturnNode) (f : Node),
      (promote_loop rl rc f p).focus.size
          + path_size (promote_loop rl rc f p).prev
        = 1 + rc.size + f.size + path_size p := by
  intro p
  induction p with
  | Sibling l pp c ih =>
    intro f
    show (promote_loop rl rc (Node.new l c f) pp).focus.size
        + path_size (promote_loop rl rc (Node.new l c f) pp).prev = _
    rw [ih]
    simp only [Node.new_size, path_size]
    omega
  | Parent l pp s ih =>
    intro f
    show (Node.new rl rc s).size + path_size (.Sibling l pp f) = _
    simp only [Node.new_size, path_size]
    omega
  | Empty =>
    intro f
    show (Node.new rl rc f).size + path_size .Empty = _
    simp only [Node.new_size, path_size]

theorem promote_loop_of_climb_none (rl : String) (rc : Node) :
    ∀ (p : ReturnNode) (f f2 : Node), climb f p = (f2, none) →
      promote_loop rl rc f p = ⟨Node.new rl rc f2, .Empty⟩ := by
  intro p
  induction p with
  | Sibling l pp c ih => intro f f2 h; exact ih _ _ h
  | Parent l pp s ih => intro f f2 h; simp [climb] at h
  | Empty =>
    intro f f2 h
    simp [climb] at h
    rw [h]
    rfl

theorem promote_loop_of_climb_some (rl : String) (rc : Node) :
    ∀ (p : ReturnNode) (f f2 : Node) (pl : String) (pp : ReturnNode) (ps : Node),
      climb f p = (f2, some (pl, pp, ps)) →
      promote_loop rl rc f p = ⟨Node.new rl rc ps, .Sibling pl pp f2⟩ := by
  intro p
  induction p with
  | Sibling l pp0 c ih => intro f f2 pl pp ps h; exact ih _ _ _ _ _ h
  | Parent l pp0 s ih =>
    intro f f2 pl pp ps h
    simp [climb] at h
    obtain ⟨h1, h2, h3, h4⟩ := h
    subst h1; subst h2; subst h3; subst h4
    rfl
  | Empty => intro f f2 pl pp ps h; simp [climb] at h

/-- C3: on a valid index, `promote` extracts the focused subtree (label and
child; its following siblings stay behind) and never loses a node (the
result's size equals the original's); climbing past the preceding siblings,
if no parent step is found the extracted subtree becomes the new first root
(returned index 0), and if a parent step `pl` is found the extracted
subtree is reinserted as that parent's immediate next sibling one level up;
promoting "2" in the forest `1[2,3],4` yields `1[3],2,4` at root level. -/
theorem spec_promote (F : Node) (i : Nat)
    (hF : F.well_sized) (hi : i < F.size) :
    (∀ rl rc si sz, (F.focus_node i).focus = .Filled rl rc si sz →
        (F.promote i).1.size = F.size
          ∧ (∀ f2, climb si (F.focus_node i).prev = (f2, none) →
              F.promote i = (Node.new rl rc f2, 0))
          ∧ (∀ f2 pl pp ps,
              climb si (F.focus_node i).prev = (f2, some (pl, pp, ps)) →
              F.promote i
                = (restore_aux (Node.new rl rc ps) (.Sibling pl pp f2),
                   1 + f2.size + idx_of pp)))
      ∧ promote_example.promote 1
          = (Node.new "1" (Node.new "3" .Empty .Empty)
              (Node.new "2" .Empty (Node.new "4" .Empty .Empty)), 2) := by
  obtain ⟨hzf, hzp, hidx, hpre, hlab, hrest, hne⟩ := focus_decomp F i hF hi
  refine ⟨?_, by decide⟩
  intro rl rc si sz hfz
  have hwf : (Node.Filled rl rc si sz).well_sized := by rwa [hfz] at hzf
  have hz : F.focus_node i = ⟨.Filled rl rc si sz, (F.focus_node i).prev⟩ := by
    rw [← hfz]
  have hprom : F.promote i
      = ForestZipper.restore_with_index
          (promote_loop rl rc si (F.focus_node i).prev) := by
    rw [Node.promote, hz]
    rfl
  refine ⟨?_, ?_, ?_⟩
  · rw [hprom]
    have h1 : (ForestZipper.restore_with_index
        (promote_loop rl rc si (F.focus_node i).prev)).1
          = restore_aux (promote_loop rl rc si (F.focus_node i).prev).focus
              (promote_loop rl rc si (F.focus_node i).prev).prev := by
      rw [ForestZipper.restore_with_index, restore_with_index_spec]
    rw [h1, restore_size]
    have h2 := promote_loop_size rl rc (F.focus_node i).prev si
    have hFsize : F.size = sz + path_size (F.focus_node i).prev := by
      rw [hfz] at hrest
      conv_lhs => rw [← hrest]
      rw [restore_size]
      rfl
    have hsz : sz = 1 + rc.size + si.size := hwf.1
    omega
  · intro f2 hcl
    rw [hprom, promote_loop_of_climb_none rl rc _ si f2 hcl,
      restore_with_index_mk]
    rfl
  · intro f2 pl pp ps hcl
    rw [hprom, promote_loop_of_climb_some rl rc _ si f2 pl pp ps hcl,
      restore_with_index_mk]
    rfl

theorem spec_promote_witness :
    promote_example.well_sized ∧ 1 < promote_example.size ∧
      promote_example.promote 1
        = (Node.new "1" (Node.new "3" .Empty .Empty)
            (Node.new "2" .Empty (Node.new "4" .Empty .Empty)), 2) :=
  ⟨by decide, by decide,
    (spec_promote promote_example 1 (by decide) (by decide)).2⟩

end SieveSelector
